import Mathlib

/-
Verification of the parallel gradient-evaluation layer for bound-constrained
quasi-Newton optimization (optimParallel-python).  The shipped repository is a
demonstration notebook; the core components (FiniteDifferenceGradient,
EvaluationCache, ParallelEvaluator, Orchestrator) are modelled here from the
design specification.  Real numbers are modelled by exact rationals, so the
spec's "bit-identical" comparisons become exact equality.
-/

/-- A parameter vector: an ordered sequence of numbers, compared by exact
equality (the optimizer re-issues identical vectors verbatim). -/
abbrev Point := List ℚ

/-- Modelled from the spec: per-dimension bounds, `low`/`high` possibly
unbounded (`none`). -/
structure Bound where
  low : Option ℚ
  high : Option ℚ
deriving DecidableEq

/-- The unbounded bound, used for dimensions with no declared constraint. -/
def Bound.free : Bound := ⟨none, none⟩

/-- Whether a value satisfies a bound. -/
def Bound.inside (b : Bound) (v : ℚ) : Bool :=
  (match b.low with
   | none => true
   | some L => decide (L ≤ v)) &&
  (match b.high with
   | none => true
   | some H => decide (v ≤ H))

/-- Clamp a value into a bound (shrink the step toward the boundary). -/
def Bound.clampQ (b : Bound) (v : ℚ) : ℚ :=
  match b.low with
  | none => (match b.high with
             | none => v
             | some H => min v H)
  | some L => max (match b.high with
                   | none => v
                   | some H => min v H) L

/-- Bounds are valid when `low ≤ high` wherever both are declared. -/
def ValidBounds (bs : List Bound) : Prop :=
  ∀ b ∈ bs, ∀ L H, b.low = some L → b.high = some H → L ≤ H

/-- A point is within bounds when every coordinate satisfies its
per-dimension bound (undeclared dimensions are unbounded). -/
def InBounds (bs : List Bound) (x : Point) : Prop :=
  ∀ i, i < x.length → (bs.getD i Bound.free).inside (x.getD i 0) = true

/-- Modelled from the spec: the forward-perturbed coordinate.  A perturbation
that would exit the bound is reflected inward (one-sided difference on the
other side) or, failing that, the step is shrunk toward the boundary. -/
def fwdCoord (b : Bound) (xi hi : ℚ) : ℚ :=
  if b.inside (xi + hi) then xi + hi
  else if b.inside (xi - hi) then xi - hi
  else b.clampQ (xi + hi)

/-- Modelled from the spec: the central-mode plus-side coordinate, shrunk
toward the boundary when it would exit it. -/
def plusCoord (b : Bound) (xi hi : ℚ) : ℚ :=
  if b.inside (xi + hi) then xi + hi else b.clampQ (xi + hi)

/-- Modelled from the spec: the central-mode minus-side coordinate, shrunk
toward the boundary when it would exit it. -/
def minusCoord (b : Bound) (xi hi : ℚ) : ℚ :=
  if b.inside (xi - hi) then xi - hi else b.clampQ (xi - hi)

/-- The forward-perturbed point in dimension `i`. -/
def forwardPoint (bs : List Bound) (x h : Point) (i : ℕ) : Point :=
  x.set i (fwdCoord (bs.getD i Bound.free) (x.getD i 0) (h.getD i 0))

/-- The central-mode plus-side point in dimension `i`. -/
def plusPoint (bs : List Bound) (x h : Point) (i : ℕ) : Point :=
  x.set i (plusCoord (bs.getD i Bound.free) (x.getD i 0) (h.getD i 0))

/-- The central-mode minus-side point in dimension `i`. -/
def minusPoint (bs : List Bound) (x h : Point) (i : ℕ) : Point :=
  x.set i (minusCoord (bs.getD i Bound.free) (x.getD i 0) (h.getD i 0))

/-- The finite-difference scheme: forward or central. -/
inductive Mode where
  | forward : Mode
  | central : Mode
deriving DecidableEq

/-- Modelled from the spec: the full task list of one batch — the base point
followed by the perturbation points (`p` of them in forward mode, `2p` in
central mode). -/
def buildTasks (m : Mode) (bs : List Bound) (x h : Point) : List Point :=
  match m with
  | Mode.forward => x :: (List.range x.length).map (forwardPoint bs x h)
  | Mode.central =>
      x :: ((List.range x.length).map (plusPoint bs x h) ++
            (List.range x.length).map (minusPoint bs x h))

/-- Modelled from the spec: reduce task values into a gradient estimate by
positional assembly.  The denominator is the effective step actually taken
(equal to `h_i`, respectively `2 h_i`, when no clamping occurred). -/
def assembleGrad (m : Mode) (bs : List Bound) (x h : Point) (val : Point → ℚ) :
    List ℚ :=
  (List.range x.length).map fun i =>
    match m with
    | Mode.forward =>
        (val (forwardPoint bs x h i) - val x) /
          ((forwardPoint bs x h i).getD i 0 - x.getD i 0)
    | Mode.central =>
        (val (plusPoint bs x h i) - val (minusPoint bs x h i)) /
          ((plusPoint bs x h i).getD i 0 - (minusPoint bs x h i).getD i 0)

/-- Modelled from the spec: the evaluation cache, keyed by the exact parameter
vector. -/
structure Cache where
  find : Point → Option ℚ

/-- Exact-match lookup. -/
def Cache.lookup (c : Cache) (x : Point) : Option ℚ := c.find x

/-- First-writer-wins insertion: a duplicate insert for a present key is a
no-op. -/
def Cache.insert (c : Cache) (x : Point) (v : ℚ) : Cache :=
  ⟨fun y => if y = x then some ((c.find x).getD v) else c.find y⟩

/-- The empty cache (the cache is cleared at run start). -/
def Cache.empty : Cache := ⟨fun _ => none⟩

/-- A cache is consistent with the objective when every cached value is the
objective's value at that key. -/
def Consistent (f : Point → Option ℚ) (c : Cache) : Prop :=
  ∀ p v, c.lookup p = some v → f p = some v

/-- Modelled from the spec: the dispatch list of a batch — the task points
that are neither cached nor duplicates of an earlier task of the same batch
(a clamped duplicate is treated as a cache hit and dispatched once). -/
def missAux (c : Cache) (seen : List Point) : List Point → List Point
  | [] => []
  | p :: ps =>
      if (c.lookup p).isSome ∨ p ∈ seen then missAux c seen ps
      else p :: missAux c (p :: seen) ps

/-- The first task point at which the objective fails, if any. -/
def firstFailure (f : Point → Option ℚ) (ps : List Point) : Option Point :=
  ps.find? fun p => (f p).isNone

/-- Commit one worker result: insert the objective's value under its point
(nothing to commit when the evaluation failed). -/
def commitOne (f : Point → Option ℚ) (c : Cache) (p : Point) : Cache :=
  match f p with
  | some v => c.insert p v
  | none => c

/-- Modelled from the spec: commit the workers' results into the cache in
completion order; each successful evaluation is inserted under its point. -/
def commit (f : Point → Option ℚ) (c : Cache) (arr : List Point) : Cache :=
  arr.foldl (commitOne f) c

/-- The evaluation error: identifies the exact point at which the user
objective failed. -/
structure ObjFail where
  point : Point
deriving DecidableEq

/-- The dispatch list of one batch. -/
def batchMiss (c : Cache) (m : Mode) (bs : List Bound) (x h : Point) :
    List Point :=
  missAux c [] (buildTasks m bs x h)

/-- The cache after one successful batch: results committed in the completion
order chosen by the scheduler `pick`. -/
def batchCache (pick : List Point → List Point) (f : Point → Option ℚ)
    (c : Cache) (m : Mode) (bs : List Bound) (x h : Point) : Cache :=
  commit f c (pick (batchMiss c m bs x h))

/-- The value a committed cache holds for a point (0 as a formal default). -/
def batchVal (c : Cache) (p : Point) : ℚ := (c.lookup p).getD 0

/-- The log entries produced by one batch: each dispatched point and its
value, in completion order. -/
def batchLog (pick : List Point → List Point) (f : Point → Option ℚ)
    (c : Cache) (m : Mode) (bs : List Bound) (x h : Point) :
    List (Point × ℚ) :=
  (pick (batchMiss c m bs x h)).filterMap fun p => (f p).map fun v => (p, v)

/-- The assembled output of one successful batch. -/
structure BatchOut where
  cache : Cache
  fval : ℚ
  grad : List ℚ
  log : List (Point × ℚ)

/-- Modelled from the spec: one fan-out/fan-in batch.  The task list is built,
cache misses are dispatched, and if any dispatched evaluation fails the whole
batch fails with the first failing point and no gradient; otherwise all
results are committed and `(f, ∇f)` is assembled positionally from the
committed cache. -/
def runBatch (pick : List Point → List Point) (f : Point → Option ℚ)
    (c : Cache) (m : Mode) (bs : List Bound) (x h : Point) :
    Except ObjFail BatchOut :=
  match firstFailure f (batchMiss c m bs x h) with
  | some p => Except.error ⟨p⟩
  | none =>
      Except.ok
        ⟨batchCache pick f c m bs x h,
         batchVal (batchCache pick f c m bs x h) x,
         assembleGrad m bs x h (batchVal (batchCache pick f c m bs x h)),
         batchLog pick f c m bs x h⟩

/-- The orchestrator's running state: the cache, the current iterate, the
evaluation log, the assembled batches, and all solver-requested points. -/
structure RunState where
  cache : Cache
  x : Point
  log : List (Point × ℚ)
  batches : List (ℚ × List ℚ)
  reqs : List Point

/-- One orchestrator step: evaluate a batch at the current iterate and
accumulate the diagnostics. -/
def stepRun (pick : List Point → List Point) (f : Point → Option ℚ)
    (m : Mode) (bs : List Bound) (h : Point) (s : RunState) :
    Except ObjFail (RunState × ℚ × List ℚ) :=
  match runBatch pick f s.cache m bs s.x h with
  | Except.error e => Except.error e
  | Except.ok b =>
      Except.ok
        (⟨b.cache, s.x, s.log ++ b.log, s.batches ++ [(b.fval, b.grad)],
          s.reqs ++ buildTasks m bs s.x h⟩, b.fval, b.grad)

/-- Modelled from the spec: the orchestrator loop.  The external quasi-Newton
solver is abstracted by `nxt`, which maps `(f, ∇f)` and the current iterate to
the next iterate; `n` counts the remaining solver steps.  The final iterate
and its objective value are returned. -/
def runAux (pick : List Point → List Point) (f : Point → Option ℚ)
    (nxt : ℚ → List ℚ → Point → Point) (m : Mode) (bs : List Bound)
    (h : Point) : ℕ → RunState → Except ObjFail (RunState × ℚ)
  | 0, s =>
      match stepRun pick f m bs h s with
      | Except.error e => Except.error e
      | Except.ok (s', fv, _) => Except.ok (s', fv)
  | n + 1, s =>
      match stepRun pick f m bs h s with
      | Except.error e => Except.error e
      | Except.ok (s', fv, g) =>
          runAux pick f nxt m bs h n
            ⟨s'.cache, nxt fv g s'.x, s'.log, s'.batches, s'.reqs⟩

/-- The timing summary: total elapsed seconds and seconds per evaluation. -/
structure TimeSummary where
  elapsed : ℚ
  step : ℚ
deriving DecidableEq

/-- The run result: the final point and value, the evaluation log, the
assembled batches, the solver-requested points, and the timing summary. -/
structure RunOut where
  xstar : Point
  fstar : ℚ
  log : List (Point × ℚ)
  batches : List (ℚ × List ℚ)
  reqs : List Point
  time : TimeSummary
deriving DecidableEq

/-- Modelled from the spec: a whole run.  The cache is cleared at run start;
on success the timing summary divides the measured elapsed time by the number
of evaluations performed. -/
def run (pick : List Point → List Point) (f : Point → Option ℚ)
    (nxt : ℚ → List ℚ → Point → Point) (m : Mode) (bs : List Bound)
    (h : Point) (n : ℕ) (x0 : Point) (elapsed : ℚ) : Except ObjFail RunOut :=
  match runAux pick f nxt m bs h n ⟨Cache.empty, x0, [], [], []⟩ with
  | Except.error e => Except.error e
  | Except.ok (s, fv) =>
      Except.ok ⟨s.x, fv, s.log, s.batches, s.reqs,
                 ⟨elapsed, elapsed / (s.log.length : ℚ)⟩⟩

/-- Modelled from the spec: one evaluation of the external sequential solver's
callback — the objective and its finite-difference gradient evaluated
directly, in task order, with no cache and no worker pool. -/
def seqBatch (f : Point → Option ℚ) (m : Mode) (bs : List Bound)
    (x h : Point) : Except ObjFail (ℚ × List ℚ) :=
  match firstFailure f (buildTasks m bs x h) with
  | some p => Except.error ⟨p⟩
  | none =>
      Except.ok ((f x).getD 0, assembleGrad m bs x h fun p => (f p).getD 0)

/-- Modelled from the spec: the external sequential L-BFGS-B solver that the
parallel optimizer wraps, driven by the same abstract step `nxt`. -/
def seqRun (f : Point → Option ℚ) (nxt : ℚ → List ℚ → Point → Point)
    (m : Mode) (bs : List Bound) (h : Point) :
    ℕ → Point → Except ObjFail (Point × ℚ)
  | 0, x =>
      match seqBatch f m bs x h with
      | Except.error e => Except.error e
      | Except.ok (fv, _) => Except.ok (x, fv)
  | n + 1, x =>
      match seqBatch f m bs x h with
      | Except.error e => Except.error e
      | Except.ok (fv, g) => seqRun f nxt m bs h n (nxt fv g x)

/-- A scheduler is valid when the completion order it produces is a
permutation of the dispatched tasks. -/
def ValidPick (pick : List Point → List Point) : Prop :=
  ∀ l : List Point, (pick l).Perm l

/-- An example objective for concrete instances: the coordinate sum, total
on every point. -/
def sumQ : Point → Option ℚ :=
  fun p => some (p.foldl (fun a v => a + v) 0)

/-- The scheduler that completes tasks in dispatch order (a single worker). -/
def idPick : List Point → List Point := fun l => l

/-- A scheduler that completes tasks in reverse dispatch order. -/
def revPick : List Point → List Point := fun l => l.reverse

/-- An example objective that fails at the point `[1]` and returns `0`
everywhere else. -/
def fFail : Point → Option ℚ :=
  fun p => if p = [1] then none else some 0

theorem Cache.eq_of_find {c₁ c₂ : Cache} (h : c₁.find = c₂.find) : c₁ = c₂ := by
  cases c₁
  cases c₂
  simp_all

theorem Cache.lookup_insert (c : Cache) (x : Point) (v : ℚ) (y : Point) :
    (c.insert x v).lookup y =
      if y = x then some ((c.lookup x).getD v) else c.lookup y := rfl

theorem Cache.lookup_empty (x : Point) : Cache.empty.lookup x = none := rfl

theorem Cache.insert_of_isSome {c : Cache} {x : Point} {v : ℚ}
    (h : (c.lookup x).isSome) : c.insert x v = c := by
  apply Cache.eq_of_find
  funext y
  show (if y = x then some ((c.lookup x).getD v) else c.find y) = c.find y
  rcases hx : c.lookup x with _ | w
  · rw [hx] at h
    simp at h
  · by_cases hy : y = x
    · subst hy
      simpa [Cache.lookup] using hx.symm
    · simp [hy]

theorem Cache.lookup_insert_mono {c : Cache} {x v} (y : Point) (w : ℚ)
    (h : c.lookup x = some v) : (c.insert y w).lookup x = some v := by
  rw [Cache.lookup_insert]
  by_cases hy : x = y
  · subst hy
    simp [h]
  · simp [hy, h]

theorem consistent_empty (f : Point → Option ℚ) : Consistent f Cache.empty := by
  intro p v hv
  simp [Cache.lookup_empty] at hv

theorem consistent_insert {f : Point → Option ℚ} {c : Cache}
    (hc : Consistent f c) {p : Point} {v : ℚ} (hf : f p = some v) :
    Consistent f (c.insert p v) := by
  intro q w hq
  rw [Cache.lookup_insert] at hq
  by_cases hqp : q = p
  · subst hqp
    rcases hl : c.lookup q with _ | u
    · rw [hl] at hq
      simp at hq
      rw [← hq]
      exact hf
    · rw [hl] at hq
      simp at hq
      rw [← hq]
      exact hc q u hl
  · rw [if_neg hqp] at hq
    exact hc q w hq

theorem consistent_commit {f : Point → Option ℚ} {c : Cache}
    (hc : Consistent f c) (arr : List Point) : Consistent f (commit f c arr) := by
  induction arr generalizing c with
  | nil => exact hc
  | cons p ps ih =>
      show Consistent f (commit f (commitOne f c p) ps)
      rcases hp : f p with _ | v
      · exact ih (by simpa [commitOne, hp] using hc)
      · exact ih (by simpa [commitOne, hp] using consistent_insert hc hp)

theorem lookup_commit_mono {f : Point → Option ℚ} {c : Cache} {x : Point}
    {v : ℚ} (h : c.lookup x = some v) (arr : List Point) :
    (commit f c arr).lookup x = some v := by
  induction arr generalizing c with
  | nil => exact h
  | cons p ps ih =>
      show (commit f (commitOne f c p) ps).lookup x = some v
      rcases hp : f p with _ | w
      · exact ih (by simpa [commitOne, hp] using h)
      · exact ih (by simpa [commitOne, hp] using Cache.lookup_insert_mono p w h)

theorem lookup_commit_of_mem {f : Point → Option ℚ} {c : Cache}
    (hc : Consistent f c) {arr : List Point} {p : Point} {v : ℚ}
    (hp : p ∈ arr) (hf : f p = some v) :
    (commit f c arr).lookup p = some v := by
  induction arr generalizing c with
  | nil => simp at hp
  | cons q qs ih =>
      show (commit f (commitOne f c q) qs).lookup p = some v
      rcases List.mem_cons.mp hp with hq | hq
      · subst hq
        have hstep : (commitOne f c p).lookup p = some v := by
          rw [commitOne, hf, Cache.lookup_insert, if_pos rfl]
          rcases hl : c.lookup p with _ | u
          · simp
          · have := hc p u hl
            rw [this] at hf
            simp at hf
            simp [hf]
        exact lookup_commit_mono hstep qs
      · rcases hq2 : f q with _ | w
        · exact ih (by simpa [commitOne, hq2] using hc) hq
        · exact ih (by simpa [commitOne, hq2] using consistent_insert hc hq2) hq

theorem Cache.insert_comm_of_ne {p q : Point} (hpq : p ≠ q) (c : Cache)
    (vp vq : ℚ) :
    (c.insert p vp).insert q vq = (c.insert q vq).insert p vp := by
  apply Cache.eq_of_find
  funext y
  simp only [Cache.insert]
  by_cases hyq : y = q <;> by_cases hyp : y = p <;>
    simp [hyq, hyp, hpq, Ne.symm hpq]

theorem commitOne_comm (f : Point → Option ℚ) (c : Cache) (p q : Point) :
    commitOne f (commitOne f c p) q = commitOne f (commitOne f c q) p := by
  by_cases hpq : p = q
  · subst hpq
    rfl
  · rcases hfp : f p with _ | vp <;> rcases hfq : f q with _ | vq <;>
      simp [commitOne, hfp, hfq]
    exact Cache.insert_comm_of_ne hpq c vp vq

theorem commit_perm {arr₁ arr₂ : List Point} (hp : arr₁.Perm arr₂)
    (f : Point → Option ℚ) (c : Cache) :
    commit f c arr₁ = commit f c arr₂ := by
  induction hp generalizing c with
  | nil => rfl
  | cons x h ih =>
      show commit f (commitOne f c x) _ = commit f (commitOne f c x) _
      exact ih _
  | swap x y l =>
      show commit f (commitOne f (commitOne f c y) x) l =
           commit f (commitOne f (commitOne f c x) y) l
      rw [commitOne_comm]
  | trans h1 h2 ih1 ih2 => exact (ih1 c).trans (ih2 c)

theorem missAux_sublist (c : Cache) (seen : List Point) (ts : List Point) :
    (missAux c seen ts).Sublist ts := by
  induction ts generalizing seen with
  | nil => simp [missAux]
  | cons p ps ih =>
      rw [missAux]
      by_cases hp : (c.lookup p).isSome ∨ p ∈ seen
      · rw [if_pos hp]
        exact (ih seen).trans (List.sublist_cons_self p ps)
      · rw [if_neg hp]
        exact List.Sublist.cons₂ p (ih (p :: seen))

theorem missAux_not_seen (c : Cache) (seen : List Point) (ts : List Point) :
    ∀ p ∈ missAux c seen ts, (c.lookup p) = none ∧ p ∉ seen := by
  induction ts generalizing seen with
  | nil => simp [missAux]
  | cons q qs ih =>
      intro p hp
      rw [missAux] at hp
      by_cases hq : (c.lookup q).isSome ∨ q ∈ seen
      · rw [if_pos hq] at hp
        exact ih seen p hp
      · rw [if_neg hq] at hp
        push_neg at hq
        rcases List.mem_cons.mp hp with hpq | hp2
        · subst hpq
          refine ⟨?_, hq.2⟩
          rcases hl : c.lookup p with _ | u
          · rfl
          · exact absurd (by simp [hl]) hq.1
        · have := ih (q :: seen) p hp2
          exact ⟨this.1, fun hmem => this.2 (List.mem_cons_of_mem q hmem)⟩

theorem missAux_nodup (c : Cache) (seen : List Point) (ts : List Point) :
    (missAux c seen ts).Nodup := by
  induction ts generalizing seen with
  | nil => simp [missAux]
  | cons q qs ih =>
      rw [missAux]
      by_cases hq : (c.lookup q).isSome ∨ q ∈ seen
      · rw [if_pos hq]
        exact ih seen
      · rw [if_neg hq]
        refine List.nodup_cons.mpr ⟨?_, ih (q :: seen)⟩
        intro hmem
        exact (missAux_not_seen c (q :: seen) qs q hmem).2 (List.mem_cons_self q _)

theorem missAux_covers (c : Cache) (seen : List Point) (ts : List Point) :
    ∀ p ∈ ts, (c.lookup p).isSome ∨ p ∈ seen ∨ p ∈ missAux c seen ts := by
  induction ts generalizing seen with
  | nil => simp
  | cons q qs ih =>
      intro p hp
      rw [missAux]
      by_cases hq : (c.lookup q).isSome ∨ q ∈ seen
      · rw [if_pos hq]
        rcases List.mem_cons.mp hp with hpq | hp2
        · subst hpq
          rcases hq with h1 | h2
          · exact Or.inl h1
          · exact Or.inr (Or.inl h2)
        · exact ih seen p hp2
      · rw [if_neg hq]
        rcases List.mem_cons.mp hp with hpq | hp2
        · subst hpq
          exact Or.inr (Or.inr (List.mem_cons_self p _))
        · rcases ih (q :: seen) p hp2 with h1 | h2 | h3
          · exact Or.inl h1
          · rcases List.mem_cons.mp h2 with h4 | h5
            · subst h4
              exact Or.inr (Or.inr (List.mem_cons_self p _))
            · exact Or.inr (Or.inl h5)
          · exact Or.inr (Or.inr (List.mem_cons_of_mem q h3))

theorem firstFailure_missAux {f : Point → Option ℚ} {c : Cache}
    (hc : Consistent f c) {seen : List Point}
    (hseen : ∀ q ∈ seen, (f q).isSome = true) (ts : List Point) :
    firstFailure f (missAux c seen ts) = firstFailure f ts := by
  induction ts generalizing seen with
  | nil => rfl
  | cons p ps ih =>
      simp only [firstFailure] at ih ⊢
      rw [missAux]
      by_cases hp : (c.lookup p).isSome ∨ p ∈ seen
      · rw [if_pos hp]
        have hps : (f p).isSome = true := by
          rcases hp with h1 | h2
          · rcases hl : c.lookup p with _ | v
            · rw [hl] at h1
              simp at h1
            · simp [hc p v hl]
          · exact hseen p h2
        have hneg : ¬((f p).isNone = true) := by
          intro hcontra
          rw [Option.isNone_iff_eq_none] at hcontra
          rw [hcontra] at hps
          simp at hps
        rw [@List.find?_cons_of_neg Point (fun q => (f q).isNone) p ps hneg]
        exact ih hseen
      · rw [if_neg hp]
        by_cases hfail : (f p).isNone = true
        · rw [@List.find?_cons_of_pos Point (fun q => (f q).isNone) p
                (missAux c (p :: seen) ps) hfail,
              @List.find?_cons_of_pos Point (fun q => (f q).isNone) p ps hfail]
        · rw [@List.find?_cons_of_neg Point (fun q => (f q).isNone) p
                (missAux c (p :: seen) ps) hfail,
              @List.find?_cons_of_neg Point (fun q => (f q).isNone) p ps hfail]
          refine ih ?_
          intro q hq
          rcases List.mem_cons.mp hq with h1 | h2
          · subst h1
            rcases hfp : f q with _ | v
            · rw [hfp] at hfail
              simp at hfail
            · simp
          · exact hseen q h2

theorem base_mem_buildTasks (m : Mode) (bs : List Bound) (x h : Point) :
    x ∈ buildTasks m bs x h := by
  cases m <;> simp [buildTasks]

theorem forwardPoint_mem_buildTasks (bs : List Bound) (x h : Point) {i : ℕ}
    (hi : i < x.length) :
    forwardPoint bs x h i ∈ buildTasks Mode.forward bs x h := by
  simp only [buildTasks]
  exact List.mem_cons_of_mem _
    (List.mem_map_of_mem _ (List.mem_range.mpr hi))

theorem plusPoint_mem_buildTasks (bs : List Bound) (x h : Point) {i : ℕ}
    (hi : i < x.length) :
    plusPoint bs x h i ∈ buildTasks Mode.central bs x h := by
  simp only [buildTasks]
  exact List.mem_cons_of_mem _
    (List.mem_append_left _ (List.mem_map_of_mem _ (List.mem_range.mpr hi)))

theorem minusPoint_mem_buildTasks (bs : List Bound) (x h : Point) {i : ℕ}
    (hi : i < x.length) :
    minusPoint bs x h i ∈ buildTasks Mode.central bs x h := by
  simp only [buildTasks]
  exact List.mem_cons_of_mem _
    (List.mem_append_right _ (List.mem_map_of_mem _ (List.mem_range.mpr hi)))

theorem batchCache_lookup {f : Point → Option ℚ} {c : Cache}
    (hc : Consistent f c) {pick : List Point → List Point}
    (hpick : ValidPick pick) (m : Mode) (bs : List Bound) (x h : Point)
    (hok : firstFailure f (batchMiss c m bs x h) = none) :
    ∀ p ∈ buildTasks m bs x h,
      (batchCache pick f c m bs x h).lookup p = f p := by
  intro p hp
  rcases missAux_covers c [] (buildTasks m bs x h) p hp with h1 | h2 | h3
  · rcases hl : c.lookup p with _ | v
    · rw [hl] at h1
      simp at h1
    · rw [batchCache]
      rw [lookup_commit_mono hl _]
      exact (hc p v hl).symm
  · simp at h2
  · have hmem : p ∈ pick (batchMiss c m bs x h) :=
      ((hpick (batchMiss c m bs x h)).mem_iff).mpr h3
    have hsome : ¬((f p).isNone = true) := by
      rw [firstFailure, List.find?_eq_none] at hok
      exact hok p h3
    rcases hfp : f p with _ | v
    · rw [hfp] at hsome
      simp at hsome
    · rw [batchCache]
      exact lookup_commit_of_mem hc hmem hfp

theorem assembleGrad_congr {m : Mode} {bs : List Bound} {x h : Point}
    {v₁ v₂ : Point → ℚ}
    (hv : ∀ p ∈ buildTasks m bs x h, v₁ p = v₂ p) :
    assembleGrad m bs x h v₁ = assembleGrad m bs x h v₂ := by
  rw [assembleGrad, assembleGrad]
  apply List.map_congr_left
  intro i hi
  have hi2 : i < x.length := List.mem_range.mp hi
  cases m with
  | forward =>
      simp only
      rw [hv _ (base_mem_buildTasks Mode.forward bs x h),
          hv _ (forwardPoint_mem_buildTasks bs x h hi2)]
  | central =>
      simp only
      rw [hv _ (plusPoint_mem_buildTasks bs x h hi2),
          hv _ (minusPoint_mem_buildTasks bs x h hi2)]

theorem runBatch_ok_inv {pick : List Point → List Point}
    {f : Point → Option ℚ} {c : Cache} {m : Mode} {bs : List Bound}
    {x h : Point} {b : BatchOut}
    (hb : runBatch pick f c m bs x h = Except.ok b) :
    firstFailure f (batchMiss c m bs x h) = none ∧
    b = ⟨batchCache pick f c m bs x h,
         batchVal (batchCache pick f c m bs x h) x,
         assembleGrad m bs x h (batchVal (batchCache pick f c m bs x h)),
         batchLog pick f c m bs x h⟩ := by
  rw [runBatch] at hb
  rcases hff : firstFailure f (batchMiss c m bs x h) with _ | p
  · rw [hff] at hb
    simp at hb
    exact ⟨rfl, hb.symm⟩
  · rw [hff] at hb
    simp at hb

theorem runBatch_error_inv {pick : List Point → List Point}
    {f : Point → Option ℚ} {c : Cache} {m : Mode} {bs : List Bound}
    {x h : Point} {e : ObjFail}
    (hb : runBatch pick f c m bs x h = Except.error e) :
    firstFailure f (batchMiss c m bs x h) = some e.point := by
  rw [runBatch] at hb
  rcases hff : firstFailure f (batchMiss c m bs x h) with _ | p
  · rw [hff] at hb
    simp at hb
  · rw [hff] at hb
    simp at hb
    rw [← hb]

theorem runBatch_seq {f : Point → Option ℚ} {c : Cache}
    (hc : Consistent f c) {pick : List Point → List Point}
    (hpick : ValidPick pick) (m : Mode) (bs : List Bound) (x h : Point) :
    (runBatch pick f c m bs x h).map (fun b => (b.fval, b.grad)) =
      seqBatch f m bs x h := by
  rw [runBatch, seqBatch]
  have hff : firstFailure f (batchMiss c m bs x h) =
      firstFailure f (buildTasks m bs x h) :=
    firstFailure_missAux hc (by simp) (buildTasks m bs x h)
  rcases hcase : firstFailure f (buildTasks m bs x h) with _ | p
  · rw [hff, hcase]
    simp only [Except.map]
    have hlook := batchCache_lookup hc hpick m bs x h (hff.trans hcase)
    have hbase : batchVal (batchCache pick f c m bs x h) x = (f x).getD 0 := by
      rw [batchVal, hlook x (base_mem_buildTasks m bs x h)]
    have hgrad : assembleGrad m bs x h (batchVal (batchCache pick f c m bs x h)) =
        assembleGrad m bs x h (fun p => (f p).getD 0) := by
      apply assembleGrad_congr
      intro p hp
      rw [batchVal, hlook p hp]
    rw [hbase, hgrad]
  · rw [hff, hcase]
    simp [Except.map]

theorem batchCache_pick_indep {pick₁ pick₂ : List Point → List Point}
    (h₁ : ValidPick pick₁) (h₂ : ValidPick pick₂) (f : Point → Option ℚ)
    (c : Cache) (m : Mode) (bs : List Bound) (x h : Point) :
    batchCache pick₁ f c m bs x h = batchCache pick₂ f c m bs x h := by
  rw [batchCache, batchCache]
  exact commit_perm ((h₁ _).trans (h₂ _).symm) f c

theorem runBatch_pick_indep {pick₁ pick₂ : List Point → List Point}
    (h₁ : ValidPick pick₁) (h₂ : ValidPick pick₂) (f : Point → Option ℚ)
    (c : Cache) (m : Mode) (bs : List Bound) (x h : Point) :
    (runBatch pick₁ f c m bs x h).map (fun b => (b.cache, b.fval, b.grad)) =
    (runBatch pick₂ f c m bs x h).map (fun b => (b.cache, b.fval, b.grad)) := by
  rw [runBatch, runBatch]
  rcases hff : firstFailure f (batchMiss c m bs x h) with _ | p
  · simp only [Except.map]
    rw [batchCache_pick_indep h₁ h₂ f c m bs x h]
  · rfl

theorem lookup_commit_of_not_mem {f : Point → Option ℚ} {c : Cache}
    {arr : List Point} {p : Point} (hp : p ∉ arr) :
    (commit f c arr).lookup p = c.lookup p := by
  induction arr generalizing c with
  | nil => rfl
  | cons q qs ih =>
      have hpq : p ≠ q := fun hh => hp (hh ▸ List.mem_cons_self q qs)
      have hp2 : p ∉ qs := fun hh => hp (List.mem_cons_of_mem q hh)
      show (commit f (commitOne f c q) qs).lookup p = c.lookup p
      rw [ih hp2]
      rcases hq : f q with _ | v
      · simp [commitOne, hq]
      · simp only [commitOne, hq]
        rw [Cache.lookup_insert, if_neg hpq]

theorem filterMap_eq_map_of_isSome {f : Point → Option ℚ} {arr : List Point}
    (hs : ∀ p ∈ arr, (f p).isSome = true) :
    (arr.filterMap fun p => (f p).map fun v => (p, v)) =
      arr.map fun p => (p, (f p).getD 0) := by
  induction arr with
  | nil => rfl
  | cons q qs ih =>
      rcases hq : f q with _ | v
      · have := hs q (List.mem_cons_self q qs)
        rw [hq] at this
        simp at this
      · rw [List.filterMap_cons, List.map_cons, hq]
        simp only [Option.map_some']
        rw [ih fun p hp => hs p (List.mem_cons_of_mem q hp)]
        simp [hq]

theorem miss_isSome_of_noFailure {f : Point → Option ℚ} {c : Cache}
    {m : Mode} {bs : List Bound} {x h : Point}
    (hok : firstFailure f (batchMiss c m bs x h) = none) :
    ∀ p ∈ batchMiss c m bs x h, (f p).isSome = true := by
  intro p hp
  rw [firstFailure, List.find?_eq_none] at hok
  have := hok p hp
  rcases hfp : f p with _ | v
  · rw [hfp] at this
    simp at this
  · simp

theorem stepRun_of_error {pick : List Point → List Point}
    {f : Point → Option ℚ} {m : Mode} {bs : List Bound} {h : Point}
    {s : RunState} {e : ObjFail}
    (hB : runBatch pick f s.cache m bs s.x h = Except.error e) :
    stepRun pick f m bs h s = Except.error e := by
  rw [stepRun, hB]

theorem stepRun_of_ok {pick : List Point → List Point}
    {f : Point → Option ℚ} {m : Mode} {bs : List Bound} {h : Point}
    {s : RunState} {b : BatchOut}
    (hB : runBatch pick f s.cache m bs s.x h = Except.ok b) :
    stepRun pick f m bs h s =
      Except.ok
        (⟨b.cache, s.x, s.log ++ b.log, s.batches ++ [(b.fval, b.grad)],
          s.reqs ++ buildTasks m bs s.x h⟩, b.fval, b.grad) := by
  rw [stepRun, hB]

theorem stepRun_invariant {pick : List Point → List Point}
    (hpick : ValidPick pick) {f : Point → Option ℚ} {m : Mode}
    {bs : List Bound} {h : Point} {s s' : RunState} {fv : ℚ} {g : List ℚ}
    (hc : Consistent f s.cache)
    (hnd : (s.log.map Prod.fst).Nodup)
    (hlc : ∀ pv ∈ s.log, ((s.cache.lookup pv.1).isSome = true))
    (hcl : ∀ p v, s.cache.lookup p = some v → (p, v) ∈ s.log)
    (hlen : s.log.length ≤ s.reqs.length)
    (hstep : stepRun pick f m bs h s = Except.ok (s', fv, g)) :
    Consistent f s'.cache ∧
    (s'.log.map Prod.fst).Nodup ∧
    (∀ pv ∈ s'.log, ((s'.cache.lookup pv.1).isSome = true)) ∧
    (∀ p v, s'.cache.lookup p = some v → (p, v) ∈ s'.log) ∧
    s'.log.length ≤ s'.reqs.length ∧
    s'.x = s.x ∧
    s'.cache.lookup s.x = some fv ∧
    (s.x, fv) ∈ s'.log := by
  rcases hB : runBatch pick f s.cache m bs s.x h with e | b
  · rw [stepRun_of_error hB] at hstep
    simp at hstep
  · rw [stepRun_of_ok hB] at hstep
    simp only [Except.ok.injEq, Prod.mk.injEq] at hstep
    obtain ⟨hs', hfv, hg⟩ := hstep
    obtain ⟨hffnone, hbeq⟩ := runBatch_ok_inv hB
    have hmiss_none : ∀ p ∈ batchMiss s.cache m bs s.x h,
        s.cache.lookup p = none := fun p hp =>
      (missAux_not_seen s.cache [] (buildTasks m bs s.x h) p hp).1
    have hmiss_some : ∀ p ∈ batchMiss s.cache m bs s.x h, (f p).isSome = true :=
      miss_isSome_of_noFailure hffnone
    have hperm : (pick (batchMiss s.cache m bs s.x h)).Perm
        (batchMiss s.cache m bs s.x h) := hpick _
    have hpick_some : ∀ p ∈ pick (batchMiss s.cache m bs s.x h),
        (f p).isSome = true := fun p hp => hmiss_some p (hperm.mem_iff.mp hp)
    have hblog : b.log = (pick (batchMiss s.cache m bs s.x h)).map
        fun p => (p, (f p).getD 0) := by
      rw [hbeq]
      exact filterMap_eq_map_of_isSome hpick_some
    have hbcache : b.cache = batchCache pick f s.cache m bs s.x h := by
      rw [hbeq]
    have hcons : Consistent f b.cache := by
      rw [hbcache, batchCache]
      exact consistent_commit hc _
    have hlook := batchCache_lookup hc hpick m bs s.x h hffnone
    have hbasev : ∃ v, f s.x = some v := by
      rcases missAux_covers s.cache [] (buildTasks m bs s.x h) s.x
          (base_mem_buildTasks m bs s.x h) with h1 | h2 | h3
      · rcases hl : s.cache.lookup s.x with _ | v
        · rw [hl] at h1
          simp at h1
        · exact ⟨v, hc _ v hl⟩
      · simp at h2
      · rcases hfx : f s.x with _ | v
        · have := hmiss_some s.x h3
          rw [hfx] at this
          simp at this
        · exact ⟨v, rfl⟩
    obtain ⟨v, hfx⟩ := hbasev
    have hlookx : b.cache.lookup s.x = some v := by
      rw [hbcache, hlook s.x (base_mem_buildTasks m bs s.x h), hfx]
    have hfv2 : fv = v := by
      rw [← hfv, hbeq]
      show batchVal (batchCache pick f s.cache m bs s.x h) s.x = v
      rw [batchVal, ← hbcache, hlookx]
      rfl
    have hmapfst : b.log.map Prod.fst = pick (batchMiss s.cache m bs s.x h) := by
      rw [hblog, List.map_map]
      have hcomp : (Prod.fst ∘ fun p : Point => (p, (f p).getD 0)) = id := rfl
      rw [hcomp, List.map_id]
    have hnd' : ((s.log ++ b.log).map Prod.fst).Nodup := by
      rw [List.map_append, List.nodup_append]
      refine ⟨hnd, ?_, ?_⟩
      · rw [hmapfst]
        exact (hperm.nodup_iff).mpr
          (missAux_nodup s.cache [] (buildTasks m bs s.x h))
      · intro a ha hb2
        rw [hmapfst] at hb2
        have hmiss : a ∈ batchMiss s.cache m bs s.x h := hperm.mem_iff.mp hb2
        have hnone := hmiss_none a hmiss
        rcases List.mem_map.mp ha with ⟨pv, hpv, hpva⟩
        have := hlc pv hpv
        rw [hpva, hnone] at this
        simp at this
    have hlc' : ∀ pv ∈ s.log ++ b.log, ((b.cache.lookup pv.1).isSome = true) := by
      intro pv hpv
      rcases List.mem_append.mp hpv with hold | hnew
      · have := hlc pv hold
        rcases hl : s.cache.lookup pv.1 with _ | w
        · rw [hl] at this
          simp at this
        · rw [hbcache, batchCache, lookup_commit_mono hl]
          simp
      · rw [hblog] at hnew
        rcases List.mem_map.mp hnew with ⟨p, hp, hpeq⟩
        rcases hfp : f p with _ | w
        · have := hpick_some p hp
          rw [hfp] at this
          simp at this
        · have : b.cache.lookup p = some w := by
            rw [hbcache, batchCache]
            exact lookup_commit_of_mem hc hp hfp
          rw [← hpeq]
          simp only
          rw [this]
          simp
    have hcl' : ∀ p v2, b.cache.lookup p = some v2 → (p, v2) ∈ s.log ++ b.log := by
      intro p v2 hlp
      by_cases hp : p ∈ pick (batchMiss s.cache m bs s.x h)
      · rcases hfp : f p with _ | w
        · have := hpick_some p hp
          rw [hfp] at this
          simp at this
        · have hl2 : b.cache.lookup p = some w := by
            rw [hbcache, batchCache]
            exact lookup_commit_of_mem hc hp hfp
          rw [hlp] at hl2
          simp at hl2
          refine List.mem_append_right _ ?_
          rw [hblog]
          refine List.mem_map.mpr ⟨p, hp, ?_⟩
          rw [hfp, hl2]
          rfl
      · have : b.cache.lookup p = s.cache.lookup p := by
          rw [hbcache, batchCache]
          exact lookup_commit_of_not_mem hp
        rw [this] at hlp
        exact List.mem_append_left _ (hcl p v2 hlp)
    have hlen' : (s.log ++ b.log).length ≤
        (s.reqs ++ buildTasks m bs s.x h).length := by
      rw [List.length_append, List.length_append]
      refine Nat.add_le_add hlen ?_
      rw [hblog, List.length_map, hperm.length_eq]
      exact (missAux_sublist s.cache [] (buildTasks m bs s.x h)).length_le
    refine ⟨?_, ?_, ?_, ?_, ?_, ?_, ?_, ?_⟩
    · rw [← hs']
      exact hcons
    · rw [← hs']
      exact hnd'
    · rw [← hs']
      exact hlc'
    · rw [← hs']
      exact hcl'
    · rw [← hs']
      exact hlen'
    · rw [← hs']
    · rw [← hs']
      show b.cache.lookup s.x = some fv
      rw [hlookx, hfv2]
    · rw [← hs']
      show (s.x, fv) ∈ s.log ++ b.log
      apply hcl'
      rw [hlookx, hfv2]

theorem runAux_zero (pick : List Point → List Point) (f : Point → Option ℚ)
    (nxt : ℚ → List ℚ → Point → Point) (m : Mode) (bs : List Bound)
    (h : Point) (s : RunState) :
    runAux pick f nxt m bs h 0 s =
      match stepRun pick f m bs h s with
      | Except.error e => Except.error e
      | Except.ok (s', fv, _) => Except.ok (s', fv) := rfl

theorem runAux_succ (pick : List Point → List Point) (f : Point → Option ℚ)
    (nxt : ℚ → List ℚ → Point → Point) (m : Mode) (bs : List Bound)
    (h : Point) (n : ℕ) (s : RunState) :
    runAux pick f nxt m bs h (n + 1) s =
      match stepRun pick f m bs h s with
      | Except.error e => Except.error e
      | Except.ok (s', fv, g) =>
          runAux pick f nxt m bs h n
            ⟨s'.cache, nxt fv g s'.x, s'.log, s'.batches, s'.reqs⟩ := rfl

theorem runAux_zero_error {pick : List Point → List Point}
    {f : Point → Option ℚ} {nxt : ℚ → List ℚ → Point → Point} {m : Mode}
    {bs : List Bound} {h : Point} {s : RunState} {e : ObjFail}
    (he : stepRun pick f m bs h s = Except.error e) :
    runAux pick f nxt m bs h 0 s = Except.error e := by
  rw [runAux_zero, he]

theorem runAux_zero_ok {pick : List Point → List Point}
    {f : Point → Option ℚ} {nxt : ℚ → List ℚ → Point → Point} {m : Mode}
    {bs : List Bound} {h : Point} {s s' : RunState} {fv : ℚ} {g : List ℚ}
    (hok : stepRun pick f m bs h s = Except.ok (s', fv, g)) :
    runAux pick f nxt m bs h 0 s = Except.ok (s', fv) := by
  rw [runAux_zero, hok]

theorem runAux_succ_error {pick : List Point → List Point}
    {f : Point → Option ℚ} {nxt : ℚ → List ℚ → Point → Point} {m : Mode}
    {bs : List Bound} {h : Point} {n : ℕ} {s : RunState} {e : ObjFail}
    (he : stepRun pick f m bs h s = Except.error e) :
    runAux pick f nxt m bs h (n + 1) s = Except.error e := by
  rw [runAux_succ, he]

theorem runAux_succ_ok {pick : List Point → List Point}
    {f : Point → Option ℚ} {nxt : ℚ → List ℚ → Point → Point} {m : Mode}
    {bs : List Bound} {h : Point} {n : ℕ} {s s' : RunState} {fv : ℚ}
    {g : List ℚ} (hok : stepRun pick f m bs h s = Except.ok (s', fv, g)) :
    runAux pick f nxt m bs h (n + 1) s =
      runAux pick f nxt m bs h n
        ⟨s'.cache, nxt fv g s'.x, s'.log, s'.batches, s'.reqs⟩ := by
  rw [runAux_succ, hok]

theorem runAux_invariant {pick : List Point → List Point}
    (hpick : ValidPick pick) {f : Point → Option ℚ}
    {nxt : ℚ → List ℚ → Point → Point} {m : Mode} {bs : List Bound}
    {h : Point} :
    ∀ (n : ℕ) (s s' : RunState) (fv : ℚ),
    Consistent f s.cache →
    (s.log.map Prod.fst).Nodup →
    (∀ pv ∈ s.log, ((s.cache.lookup pv.1).isSome = true)) →
    (∀ p v, s.cache.lookup p = some v → (p, v) ∈ s.log) →
    s.log.length ≤ s.reqs.length →
    runAux pick f nxt m bs h n s = Except.ok (s', fv) →
    (s'.log.map Prod.fst).Nodup ∧
    s'.log.length ≤ s'.reqs.length ∧
    (s'.x, fv) ∈ s'.log := by
  intro n
  induction n with
  | zero =>
      intro s s' fv hc hnd hlc hcl hlen hrun
      rcases hS : stepRun pick f m bs h s with e | s2fg
      · rw [runAux_zero_error hS] at hrun
        simp at hrun
      · obtain ⟨s₂, fv₂, g₂⟩ := s2fg
        rw [runAux_zero_ok hS] at hrun
        simp only [Except.ok.injEq, Prod.mk.injEq] at hrun
        obtain ⟨hs2, hfv2⟩ := hrun
        subst hs2
        subst hfv2
        obtain ⟨_, hnd2, _, _, hlen2, hx2, _, hmem2⟩ :=
          stepRun_invariant hpick hc hnd hlc hcl hlen hS
        refine ⟨hnd2, hlen2, ?_⟩
        rw [hx2]
        exact hmem2
  | succ n ih =>
      intro s s' fv hc hnd hlc hcl hlen hrun
      rcases hS : stepRun pick f m bs h s with e | s2fg
      · rw [runAux_succ_error hS] at hrun
        simp at hrun
      · obtain ⟨s₂, fv₂, g₂⟩ := s2fg
        rw [runAux_succ_ok hS] at hrun
        obtain ⟨hc2, hnd2, hlc2, hcl2, hlen2, _, _, _⟩ :=
          stepRun_invariant hpick hc hnd hlc hcl hlen hS
        exact ih ⟨s₂.cache, nxt fv₂ g₂ s₂.x, s₂.log, s₂.batches, s₂.reqs⟩
          s' fv hc2 hnd2 hlc2 hcl2 hlen2 hrun

theorem seqRun_zero (f : Point → Option ℚ) (nxt : ℚ → List ℚ → Point → Point)
    (m : Mode) (bs : List Bound) (h : Point) (x : Point) :
    seqRun f nxt m bs h 0 x =
      match seqBatch f m bs x h with
      | Except.error e => Except.error e
      | Except.ok (fv, _) => Except.ok (x, fv) := rfl

theorem seqRun_succ (f : Point → Option ℚ) (nxt : ℚ → List ℚ → Point → Point)
    (m : Mode) (bs : List Bound) (h : Point) (n : ℕ) (x : Point) :
    seqRun f nxt m bs h (n + 1) x =
      match seqBatch f m bs x h with
      | Except.error e => Except.error e
      | Except.ok (fv, g) => seqRun f nxt m bs h n (nxt fv g x) := rfl

theorem runAux_seq {pick : List Point → List Point} (hpick : ValidPick pick)
    {f : Point → Option ℚ} {nxt : ℚ → List ℚ → Point → Point} {m : Mode}
    {bs : List Bound} {h : Point} :
    ∀ (n : ℕ) (s : RunState), Consistent f s.cache →
    (runAux pick f nxt m bs h n s).map (fun r => (r.1.x, r.2)) =
      seqRun f nxt m bs h n s.x := by
  intro n
  induction n with
  | zero =>
      intro s hc
      rcases hB : runBatch pick f s.cache m bs s.x h with e | b
      · have hseq : seqBatch f m bs s.x h = Except.error e := by
          rw [← runBatch_seq hc hpick m bs s.x h, hB]
          rfl
        rw [runAux_zero_error (stepRun_of_error hB), seqRun_zero, hseq]
        rfl
      · have hseq : seqBatch f m bs s.x h = Except.ok (b.fval, b.grad) := by
          rw [← runBatch_seq hc hpick m bs s.x h, hB]
          rfl
        rw [runAux_zero_ok (stepRun_of_ok hB), seqRun_zero, hseq]
        rfl
  | succ n ih =>
      intro s hc
      rcases hB : runBatch pick f s.cache m bs s.x h with e | b
      · have hseq : seqBatch f m bs s.x h = Except.error e := by
          rw [← runBatch_seq hc hpick m bs s.x h, hB]
          rfl
        rw [runAux_succ_error (stepRun_of_error hB), seqRun_succ, hseq]
        rfl
      · have hseq : seqBatch f m bs s.x h = Except.ok (b.fval, b.grad) := by
          rw [← runBatch_seq hc hpick m bs s.x h, hB]
          rfl
        rw [runAux_succ_ok (stepRun_of_ok hB), seqRun_succ, hseq]
        have hcons : Consistent f b.cache := by
          obtain ⟨_, hbeq⟩ := runBatch_ok_inv hB
          rw [hbeq]
          show Consistent f (batchCache pick f s.cache m bs s.x h)
          rw [batchCache]
          exact consistent_commit hc _
        exact ih ⟨b.cache, nxt b.fval b.grad s.x, s.log ++ b.log,
          s.batches ++ [(b.fval, b.grad)],
          s.reqs ++ buildTasks m bs s.x h⟩ hcons

theorem runAux_pick_indep {pick₁ pick₂ : List Point → List Point}
    (h₁ : ValidPick pick₁) (h₂ : ValidPick pick₂) {f : Point → Option ℚ}
    {nxt : ℚ → List ℚ → Point → Point} {m : Mode} {bs : List Bound}
    {h : Point} :
    ∀ (n : ℕ) (s₁ s₂ : RunState), s₁.cache = s₂.cache → s₁.x = s₂.x →
    s₁.batches = s₂.batches → s₁.reqs = s₂.reqs →
    (runAux pick₁ f nxt m bs h n s₁).map
      (fun r => (r.1.x, r.1.batches, r.1.reqs, r.2)) =
    (runAux pick₂ f nxt m bs h n s₂).map
      (fun r => (r.1.x, r.1.batches, r.1.reqs, r.2)) := by
  intro n
  induction n with
  | zero =>
      intro s₁ s₂ hcache hx hbat hreq
      have hbb := runBatch_pick_indep h₁ h₂ f s₁.cache m bs s₁.x h
      rcases hB₁ : runBatch pick₁ f s₁.cache m bs s₁.x h with e | b₁
      · rw [hB₁] at hbb
        rcases hB₂ : runBatch pick₂ f s₂.cache m bs s₂.x h with e₂ | b₂
        · rw [hcache, hx, hB₂] at hbb
          simp only [Except.map] at hbb
          simp at hbb
          rw [runAux_zero_error (stepRun_of_error hB₁),
              runAux_zero_error (stepRun_of_error hB₂), hbb]
        · rw [hcache, hx, hB₂] at hbb
          simp [Except.map] at hbb
      · rw [hB₁] at hbb
        rcases hB₂ : runBatch pick₂ f s₂.cache m bs s₂.x h with e₂ | b₂
        · rw [hcache, hx, hB₂] at hbb
          simp [Except.map] at hbb
        · rw [hcache, hx, hB₂] at hbb
          simp only [Except.map, Except.ok.injEq, Prod.mk.injEq] at hbb
          obtain ⟨hbc, hbf, hbg⟩ := hbb
          rw [runAux_zero_ok (stepRun_of_ok hB₁),
              runAux_zero_ok (stepRun_of_ok hB₂)]
          simp only [Except.map, Except.ok.injEq, Prod.mk.injEq]
          exact ⟨hx, by rw [hbat, hbf, hbg], by rw [hreq, hx], hbf⟩
  | succ n ih =>
      intro s₁ s₂ hcache hx hbat hreq
      have hbb := runBatch_pick_indep h₁ h₂ f s₁.cache m bs s₁.x h
      rcases hB₁ : runBatch pick₁ f s₁.cache m bs s₁.x h with e | b₁
      · rw [hB₁] at hbb
        rcases hB₂ : runBatch pick₂ f s₂.cache m bs s₂.x h with e₂ | b₂
        · rw [hcache, hx, hB₂] at hbb
          simp only [Except.map] at hbb
          simp at hbb
          rw [runAux_succ_error (stepRun_of_error hB₁),
              runAux_succ_error (stepRun_of_error hB₂), hbb]
        · rw [hcache, hx, hB₂] at hbb
          simp [Except.map] at hbb
      · rw [hB₁] at hbb
        rcases hB₂ : runBatch pick₂ f s₂.cache m bs s₂.x h with e₂ | b₂
        · rw [hcache, hx, hB₂] at hbb
          simp [Except.map] at hbb
        · rw [hcache, hx, hB₂] at hbb
          simp only [Except.map, Except.ok.injEq, Prod.mk.injEq] at hbb
          obtain ⟨hbc, hbf, hbg⟩ := hbb
          rw [runAux_succ_ok (stepRun_of_ok hB₁),
              runAux_succ_ok (stepRun_of_ok hB₂)]
          refine ih _ _ ?_ ?_ ?_ ?_
          · exact hbc
          · show nxt b₁.fval b₁.grad s₁.x = nxt b₂.fval b₂.grad s₂.x
            rw [hbf, hbg, hx]
          · show s₁.batches ++ [(b₁.fval, b₁.grad)] =
                 s₂.batches ++ [(b₂.fval, b₂.grad)]
            rw [hbat, hbf, hbg]
          · show s₁.reqs ++ buildTasks m bs s₁.x h =
                 s₂.reqs ++ buildTasks m bs s₂.x h
            rw [hreq, hx]

theorem run_of_error {pick : List Point → List Point} {f : Point → Option ℚ}
    {nxt : ℚ → List ℚ → Point → Point} {m : Mode} {bs : List Bound}
    {h : Point} {n : ℕ} {x0 : Point} {elapsed : ℚ} {e : ObjFail}
    (hA : runAux pick f nxt m bs h n ⟨Cache.empty, x0, [], [], []⟩ =
      Except.error e) :
    run pick f nxt m bs h n x0 elapsed = Except.error e := by
  rw [run, hA]

theorem run_of_ok {pick : List Point → List Point} {f : Point → Option ℚ}
    {nxt : ℚ → List ℚ → Point → Point} {m : Mode} {bs : List Bound}
    {h : Point} {n : ℕ} {x0 : Point} {elapsed : ℚ} {s : RunState} {fv : ℚ}
    (hA : runAux pick f nxt m bs h n ⟨Cache.empty, x0, [], [], []⟩ =
      Except.ok (s, fv)) :
    run pick f nxt m bs h n x0 elapsed =
      Except.ok ⟨s.x, fv, s.log, s.batches, s.reqs,
                 ⟨elapsed, elapsed / (s.log.length : ℚ)⟩⟩ := by
  rw [run, hA]

theorem getD_set_self {x : Point} {i : ℕ} (hi : i < x.length) (v : ℚ) :
    (x.set i v).getD i 0 = v := by
  rw [List.getD_eq_getElem?_getD, List.getElem?_set_self hi]
  rfl

theorem getD_set_ne {x : Point} {i j : ℕ} (hij : i ≠ j) (v : ℚ) :
    (x.set i v).getD j 0 = x.getD j 0 := by
  rw [List.getD_eq_getElem?_getD, List.getElem?_set_ne hij,
      ← List.getD_eq_getElem?_getD]

theorem inside_clampQ {b : Bound}
    (hLH : ∀ L H, b.low = some L → b.high = some H → L ≤ H) (v : ℚ) :
    b.inside (b.clampQ v) = true := by
  rcases b with ⟨lo, hi⟩
  rcases lo with _ | L <;> rcases hi with _ | H <;>
    simp [Bound.inside, Bound.clampQ]
  exact hLH L H rfl rfl

theorem inside_fwdCoord {b : Bound}
    (hLH : ∀ L H, b.low = some L → b.high = some H → L ≤ H) (xi hi : ℚ) :
    b.inside (fwdCoord b xi hi) = true := by
  rw [fwdCoord]
  by_cases h1 : b.inside (xi + hi) = true
  · rw [if_pos h1]
    exact h1
  · rw [if_neg h1]
    by_cases h2 : b.inside (xi - hi) = true
    · rw [if_pos h2]
      exact h2
    · rw [if_neg h2]
      exact inside_clampQ hLH _

theorem inside_plusCoord {b : Bound}
    (hLH : ∀ L H, b.low = some L → b.high = some H → L ≤ H) (xi hi : ℚ) :
    b.inside (plusCoord b xi hi) = true := by
  rw [plusCoord]
  by_cases h1 : b.inside (xi + hi) = true
  · rw [if_pos h1]
    exact h1
  · rw [if_neg h1]
    exact inside_clampQ hLH _

theorem inside_minusCoord {b : Bound}
    (hLH : ∀ L H, b.low = some L → b.high = some H → L ≤ H) (xi hi : ℚ) :
    b.inside (minusCoord b xi hi) = true := by
  rw [minusCoord]
  by_cases h1 : b.inside (xi - hi) = true
  · rw [if_pos h1]
    exact h1
  · rw [if_neg h1]
    exact inside_clampQ hLH _

theorem validBound_getD {bs : List Bound} (hv : ValidBounds bs) (i : ℕ) :
    ∀ L H, (bs.getD i Bound.free).low = some L →
      (bs.getD i Bound.free).high = some H → L ≤ H := by
  by_cases hi : i < bs.length
  · rw [List.getD_eq_getElem bs Bound.free hi]
    exact hv (bs[i]) (List.getElem_mem hi)
  · rw [List.getD_eq_default bs Bound.free (Nat.le_of_not_lt hi)]
    intro L H hL hH
    simp [Bound.free] at hL

theorem inBounds_set {bs : List Bound} {x : Point} (hx : InBounds bs x)
    {i : ℕ} (_hi : i < x.length) {c : ℚ}
    (hc : (bs.getD i Bound.free).inside c = true) :
    InBounds bs (x.set i c) := by
  intro j hj
  rw [List.length_set] at hj
  by_cases hij : i = j
  · subst hij
    rw [getD_set_self hj]
    exact hc
  · rw [getD_set_ne hij]
    exact hx j hj

theorem buildTasks_inBounds {m : Mode} {bs : List Bound} {x h : Point}
    (hv : ValidBounds bs) (hx : InBounds bs x) :
    ∀ q ∈ buildTasks m bs x h, InBounds bs q := by
  intro q hq
  cases m with
  | forward =>
      rcases List.mem_cons.mp hq with h1 | h2
      · subst h1
        exact hx
      · rcases List.mem_map.mp h2 with ⟨i, hi, hqi⟩
        rw [← hqi]
        exact inBounds_set hx (List.mem_range.mp hi)
          (inside_fwdCoord (validBound_getD hv i) _ _)
  | central =>
      rcases List.mem_cons.mp hq with h1 | h2
      · subst h1
        exact hx
      · rcases List.mem_append.mp h2 with h3 | h3
        · rcases List.mem_map.mp h3 with ⟨i, hi, hqi⟩
          rw [← hqi]
          exact inBounds_set hx (List.mem_range.mp hi)
            (inside_plusCoord (validBound_getD hv i) _ _)
        · rcases List.mem_map.mp h3 with ⟨i, hi, hqi⟩
          rw [← hqi]
          exact inBounds_set hx (List.mem_range.mp hi)
            (inside_minusCoord (validBound_getD hv i) _ _)

/-- C3: for a base point of dimension `p`, one forward-mode gradient request
generates exactly `1 + p` evaluation tasks (the base point plus the `p`
perturbed points), and one central-mode request generates exactly `1 + 2p`
tasks, before any cache hits are subtracted. -/
theorem c3_task_counts (bs : List Bound) (x h : Point) :
    (buildTasks Mode.forward bs x h).length = 1 + x.length ∧
    (buildTasks Mode.central bs x h).length = 1 + 2 * x.length := by
  constructor
  · simp [buildTasks]
    omega
  · simp [buildTasks]
    omega

/-- C5: with valid declared bounds and a base point inside them, every
evaluation task of a batch lies within the bounds in every dimension — a
perturbed coordinate that would exit its bound is reflected inward or shrunk
to the boundary — and hence every point dispatched to the objective (the
cache-miss list) also satisfies the bounds, so the objective is never called
outside its declared domain. -/
theorem c5_bounds_never_violated {m : Mode} {bs : List Bound} {c : Cache}
    {x h : Point} (hv : ValidBounds bs) (hx : InBounds bs x) :
    (∀ q ∈ buildTasks m bs x h, InBounds bs q) ∧
    (∀ q ∈ batchMiss c m bs x h, InBounds bs q) := by
  refine ⟨buildTasks_inBounds hv hx, ?_⟩
  intro q hq
  exact buildTasks_inBounds hv hx q
    ((missAux_sublist c [] (buildTasks m bs x h)).subset hq)

/-- C5 witness: with the bound `[0, 1]` and base point `1`, a forward step of
`1` is reflected inward and every task stays within the bound. -/
theorem c5_witness :
    (∀ q ∈ buildTasks Mode.forward [⟨some 0, some 1⟩] [1] [1],
        InBounds [⟨some 0, some 1⟩] q) ∧
    (∀ q ∈ batchMiss Cache.empty Mode.forward [⟨some 0, some 1⟩] [1] [1],
        InBounds [⟨some 0, some 1⟩] q) :=
  c5_bounds_never_violated
    (by
      intro b hb L H hL hH
      simp only [List.mem_singleton] at hb
      subst hb
      simp only [Option.some.injEq] at hL hH
      rw [← hL, ← hH]
      norm_num)
    (by
      intro i hi
      simp only [List.length_singleton] at hi
      interval_cases i
      norm_num [Bound.inside])

theorem lookup_foldl_insert {x : Point} {f1 : ℚ} :
    ∀ (vs : List ℚ) (c₀ : Cache), c₀.lookup x = some f1 →
      (vs.foldl (fun c' v => c'.insert x v) c₀).lookup x = some f1 := by
  intro vs
  induction vs with
  | nil =>
      intro c₀ h
      exact h
  | cons v vs ih =>
      intro c₀ h
      exact ih _ (Cache.lookup_insert_mono x v h)

theorem lookup_foldl_insert_ne {x : Point} :
    ∀ (kvs : List (Point × ℚ)) (c₀ : Cache), c₀.lookup x = none →
      (∀ kv ∈ kvs, kv.1 ≠ x) →
      (kvs.foldl (fun c' kv => c'.insert kv.1 kv.2) c₀).lookup x = none := by
  intro kvs
  induction kvs with
  | nil =>
      intro c₀ h _
      exact h
  | cons kv kvs ih =>
      intro c₀ h hne
      refine ih _ ?_ fun kv2 h2 => hne kv2 (List.mem_cons_of_mem kv h2)
      rw [Cache.lookup_insert,
          if_neg fun hh => hne kv (List.mem_cons_self kv kvs) hh.symm]
      exact h

/-- C7: the cache contract — a second insert under the same key is a no-op
(first writer wins); after inserting a fresh key, any sequence of later
duplicate inserts leaves the original value in place; lookup matches keys
exactly, so inserting `x` does not affect any other key; and a key never
inserted is looked up as `none`. -/
theorem c7_cache_contract (c : Cache) (x : Point) (f1 f2 : ℚ) :
    ((c.insert x f1).insert x f2 = c.insert x f1) ∧
    (c.lookup x = none →
      ∀ vs : List ℚ,
        (vs.foldl (fun c' v => c'.insert x v) (c.insert x f1)).lookup x
          = some f1) ∧
    (∀ y, y ≠ x → (c.insert x f1).lookup y = c.lookup y) ∧
    (∀ kvs : List (Point × ℚ), (∀ kv ∈ kvs, kv.1 ≠ x) →
      (kvs.foldl (fun c' kv => c'.insert kv.1 kv.2) Cache.empty).lookup x
        = none) := by
  refine ⟨?_, ?_, ?_, ?_⟩
  · apply Cache.eq_of_find
    funext y
    simp only [Cache.insert]
    by_cases hyx : y = x <;> simp [hyx]
  · intro hnone vs
    refine lookup_foldl_insert vs _ ?_
    rw [Cache.lookup_insert, if_pos rfl, hnone]
    rfl
  · intro y hyx
    rw [Cache.lookup_insert, if_neg hyx]
  · intro kvs hne
    exact lookup_foldl_insert_ne kvs Cache.empty rfl hne

/-- C7 witness: the contract applied in the empty cache at the key `[0]` with
values `1` then `2`, a later duplicate-insert sequence `[5, 7]`, the other
key `[1]`, and an insert sequence that never touches `[0]`. -/
theorem c7_witness :
    ((Cache.empty.insert [0] 1).insert [0] 2 = Cache.empty.insert [0] 1) ∧
    ((([5, 7] : List ℚ).foldl (fun c' v => c'.insert [0] v)
        (Cache.empty.insert [0] 1)).lookup [0] = some 1) ∧
    ((Cache.empty.insert [0] 1).lookup [1] = Cache.empty.lookup [1]) ∧
    ((([([1], 3), ([2], 4)] : List (Point × ℚ)).foldl
        (fun c' kv => c'.insert kv.1 kv.2) Cache.empty).lookup [0] = none) := by
  obtain ⟨h1, h2, h3, h4⟩ := c7_cache_contract Cache.empty [0] 1 2
  exact ⟨h1, h2 rfl [5, 7], h3 [1] (by decide), h4 _ (by decide)⟩

theorem assembleGrad_forward_getD (bs : List Bound) (x h : Point)
    (val : Point → ℚ) {i : ℕ} (hi : i < x.length) :
    (assembleGrad Mode.forward bs x h val).getD i 0 =
      (val (forwardPoint bs x h i) - val x) /
        ((forwardPoint bs x h i).getD i 0 - x.getD i 0) := by
  rw [assembleGrad,
      List.getD_eq_getElem _ _ (by simpa using hi),
      List.getElem_map, List.getElem_range]

theorem assembleGrad_central_getD (bs : List Bound) (x h : Point)
    (val : Point → ℚ) {i : ℕ} (hi : i < x.length) :
    (assembleGrad Mode.central bs x h val).getD i 0 =
      (val (plusPoint bs x h i) - val (minusPoint bs x h i)) /
        ((plusPoint bs x h i).getD i 0 - (minusPoint bs x h i).getD i 0) := by
  rw [assembleGrad,
      List.getD_eq_getElem _ _ (by simpa using hi),
      List.getElem_map, List.getElem_range]

theorem forwardPoint_of_inside {bs : List Bound} {x h : Point} {i : ℕ}
    (hin : (bs.getD i Bound.free).inside (x.getD i 0 + h.getD i 0) = true) :
    forwardPoint bs x h i = x.set i (x.getD i 0 + h.getD i 0) := by
  rw [forwardPoint, fwdCoord, if_pos hin]

theorem plusPoint_of_inside {bs : List Bound} {x h : Point} {i : ℕ}
    (hin : (bs.getD i Bound.free).inside (x.getD i 0 + h.getD i 0) = true) :
    plusPoint bs x h i = x.set i (x.getD i 0 + h.getD i 0) := by
  rw [plusPoint, plusCoord, if_pos hin]

theorem minusPoint_of_inside {bs : List Bound} {x h : Point} {i : ℕ}
    (hin : (bs.getD i Bound.free).inside (x.getD i 0 - h.getD i 0) = true) :
    minusPoint bs x h i = x.set i (x.getD i 0 - h.getD i 0) := by
  rw [minusPoint, minusCoord, if_pos hin]

/-- C4: when no perturbation is clamped by a bound and the batch succeeds,
the assembled gradient estimate has exactly the spec's finite-difference
form: component `i` equals `(f(x + h_i e_i) - f(x)) / h_i` in forward mode
and `(f(x + h_i e_i) - f(x - h_i e_i)) / (2 h_i)` in central mode, for every
dimension `i`. -/
theorem c4_gradient_formulas {f : Point → Option ℚ} {c : Cache}
    {pick : List Point → List Point} (hc : Consistent f c)
    (hpick : ValidPick pick) (bs : List Bound) (x h : Point)
    (_hnz : ∀ i, i < x.length → h.getD i 0 ≠ 0) :
    ((∀ j, j < x.length →
        (bs.getD j Bound.free).inside (x.getD j 0 + h.getD j 0) = true) →
      firstFailure f (batchMiss c Mode.forward bs x h) = none →
      ∀ i, i < x.length →
        (runBatch pick f c Mode.forward bs x h).map
            (fun b => b.grad.getD i 0) =
          Except.ok
            (((f (x.set i (x.getD i 0 + h.getD i 0))).getD 0 -
              (f x).getD 0) / h.getD i 0)) ∧
    ((∀ j, j < x.length →
        (bs.getD j Bound.free).inside (x.getD j 0 + h.getD j 0) = true ∧
        (bs.getD j Bound.free).inside (x.getD j 0 - h.getD j 0) = true) →
      firstFailure f (batchMiss c Mode.central bs x h) = none →
      ∀ i, i < x.length →
        (runBatch pick f c Mode.central bs x h).map
            (fun b => b.grad.getD i 0) =
          Except.ok
            (((f (x.set i (x.getD i 0 + h.getD i 0))).getD 0 -
              (f (x.set i (x.getD i 0 - h.getD i 0))).getD 0) /
              (2 * h.getD i 0))) := by
  constructor
  · intro hin hff i hi
    rw [runBatch, hff]
    simp only [Except.map, Except.ok.injEq]
    rw [assembleGrad_forward_getD bs x h _ hi]
    have hlook := batchCache_lookup hc hpick Mode.forward bs x h hff
    have hvalx : batchVal (batchCache pick f c Mode.forward bs x h) x =
        (f x).getD 0 := by
      rw [batchVal, hlook x (base_mem_buildTasks Mode.forward bs x h)]
    have hvalp : batchVal (batchCache pick f c Mode.forward bs x h)
        (forwardPoint bs x h i) = (f (forwardPoint bs x h i)).getD 0 := by
      rw [batchVal, hlook _ (forwardPoint_mem_buildTasks bs x h hi)]
    have hden : x.getD i 0 + h.getD i 0 - x.getD i 0 = h.getD i 0 := by ring
    rw [hvalx, hvalp, forwardPoint_of_inside (hin i hi), getD_set_self hi,
        hden]
  · intro hin hff i hi
    rw [runBatch, hff]
    simp only [Except.map, Except.ok.injEq]
    rw [assembleGrad_central_getD bs x h _ hi]
    have hlook := batchCache_lookup hc hpick Mode.central bs x h hff
    have hvalp : batchVal (batchCache pick f c Mode.central bs x h)
        (plusPoint bs x h i) = (f (plusPoint bs x h i)).getD 0 := by
      rw [batchVal, hlook _ (plusPoint_mem_buildTasks bs x h hi)]
    have hvalm : batchVal (batchCache pick f c Mode.central bs x h)
        (minusPoint bs x h i) = (f (minusPoint bs x h i)).getD 0 := by
      rw [batchVal, hlook _ (minusPoint_mem_buildTasks bs x h hi)]
    have hden : x.getD i 0 + h.getD i 0 - (x.getD i 0 - h.getD i 0) =
        2 * h.getD i 0 := by ring
    rw [hvalp, hvalm, plusPoint_of_inside (hin i hi).1,
        minusPoint_of_inside (hin i hi).2, getD_set_self hi, getD_set_self hi,
        hden]

/-- C4 witness: at the base point `[1, 2]` with steps `[1, 1]`, no bounds and
the coordinate-sum objective, the assembled forward gradient component 0 is
`(f([2,2]) - f([1,2])) / 1 = 1` and the central component 0 is
`(f([2,2]) - f([0,2])) / 2 = 1`. -/
theorem c4_witness :
    ((runBatch idPick sumQ Cache.empty Mode.forward [] [1, 2] [1, 1]).map
      (fun b => b.grad.getD 0 0) = Except.ok 1) ∧
    ((runBatch idPick sumQ Cache.empty Mode.central [] [1, 2] [1, 1]).map
      (fun b => b.grad.getD 0 0) = Except.ok 1) := by
  constructor
  · have hthm := (c4_gradient_formulas (consistent_empty sumQ)
      (show ValidPick idPick from fun l => List.Perm.refl l) [] [1, 2] [1, 1]
      (by
        intro i hi
        simp at hi
        interval_cases i <;> norm_num)).1
      (fun j hj => rfl)
      (by
        norm_num [batchMiss, buildTasks, missAux, firstFailure, forwardPoint,
          fwdCoord, Bound.inside, Bound.free, Cache.lookup, Cache.empty,
          List.range_succ, sumQ])
      0 (by norm_num)
    rw [hthm]
    norm_num [sumQ]
  · have hthm := (c4_gradient_formulas (consistent_empty sumQ)
      (show ValidPick idPick from fun l => List.Perm.refl l) [] [1, 2] [1, 1]
      (by
        intro i hi
        simp at hi
        interval_cases i <;> norm_num)).2
      (fun j hj => ⟨rfl, rfl⟩)
      (by
        norm_num [batchMiss, buildTasks, missAux, firstFailure, plusPoint,
          minusPoint, plusCoord, minusCoord, Bound.inside, Bound.free,
          Cache.lookup, Cache.empty, List.range_succ, sumQ])
      0 (by norm_num)
    rw [hthm]
    norm_num [sumQ]

theorem count_eq_one_of_nodup_mem {a : Point} {l : List Point}
    (hnd : l.Nodup) (hmem : a ∈ l) : l.count a = 1 := by
  induction l with
  | nil => simp at hmem
  | cons q qs ih =>
      rw [List.count_cons]
      obtain ⟨hq, hnd2⟩ := List.nodup_cons.mp hnd
      rcases List.mem_cons.mp hmem with h1 | h2
      · subst h1
        rw [List.count_eq_zero.mpr hq]
        simp
      · have hne : q ≠ a := fun hh => hq (hh ▸ h2)
        rw [ih hnd2 h2]
        simp [hne]

/-- C6: if any dispatched task of a batch fails, the whole batch is reported
as failed: `runBatch` returns an error and no gradient, the error names an
exact point at which the objective fails (a point of the batch's task list),
that point was dispatched exactly once (no automatic retry), and the whole
run terminates with that error. -/
theorem c6_failure_aborts_batch {pick : List Point → List Point}
    {f : Point → Option ℚ} {c : Cache} {m : Mode} {bs : List Bound}
    {x h : Point} {p : Point}
    (hp : p ∈ batchMiss c m bs x h) (hfail : f p = none) :
    ∃ e : ObjFail,
      runBatch pick f c m bs x h = Except.error e ∧
      f e.point = none ∧
      e.point ∈ buildTasks m bs x h ∧
      (batchMiss c m bs x h).count e.point = 1 ∧
      (∀ (nxt : ℚ → List ℚ → Point → Point) (n : ℕ) (s : RunState),
        s.cache = c → s.x = x →
        runAux pick f nxt m bs h n s = Except.error e) := by
  rcases hcase : firstFailure f (batchMiss c m bs x h) with _ | p₀
  · rw [firstFailure, List.find?_eq_none] at hcase
    have := hcase p hp
    rw [hfail] at this
    simp at this
  · refine ⟨⟨p₀⟩, ?_, ?_, ?_, ?_, ?_⟩
    · rw [runBatch, hcase]
    · have := List.find?_some hcase
      simpa [Option.isNone_iff_eq_none] using this
    · exact (missAux_sublist c [] (buildTasks m bs x h)).subset
        (List.mem_of_find?_eq_some hcase)
    · have hmem : p₀ ∈ batchMiss c m bs x h :=
        List.mem_of_find?_eq_some hcase
      have hnd : (batchMiss c m bs x h).Nodup :=
        missAux_nodup c [] (buildTasks m bs x h)
      exact count_eq_one_of_nodup_mem hnd hmem
    · intro nxt n s hsc hsx
      have hB : runBatch pick f s.cache m bs s.x h = Except.error ⟨p₀⟩ := by
        rw [hsc, hsx, runBatch, hcase]
      cases n with
      | zero => exact runAux_zero_error (stepRun_of_error hB)
      | succ n => exact runAux_succ_error (stepRun_of_error hB)

/-- C6 witness: with the objective that fails at `[1]`, the forward batch at
base point `[0]` with a step of `1` dispatches `[1]`, fails as a whole with
the error naming `[1]`, dispatched it exactly once, and any run at that state
terminates with the same error. -/
theorem c6_witness :
    runBatch idPick fFail Cache.empty Mode.forward [] [0] [1] =
      Except.error ⟨[1]⟩ ∧
    fFail [1] = none ∧
    ([1] : Point) ∈ buildTasks Mode.forward [] [0] [1] ∧
    (batchMiss Cache.empty Mode.forward [] [0] [1]).count [1] = 1 ∧
    (∀ n : ℕ, runAux idPick fFail (fun _ _ y => y) Mode.forward [] [1] n
      ⟨Cache.empty, [0], [], [], []⟩ = Except.error ⟨[1]⟩) := by
  have hp : ([1] : Point) ∈ batchMiss Cache.empty Mode.forward [] [0] [1] := by
    norm_num [batchMiss, buildTasks, missAux, forwardPoint, fwdCoord,
      Bound.inside, Bound.free, Cache.lookup, Cache.empty, List.range_succ]
  have hfail : fFail [1] = none := by
    norm_num [fFail]
  obtain ⟨e, he1, he2, he3, he4, he5⟩ :=
    @c6_failure_aborts_batch idPick fFail Cache.empty Mode.forward [] [0] [1]
      [1] hp hfail
  have heval : runBatch idPick fFail Cache.empty Mode.forward [] [0] [1] =
      Except.error ⟨[1]⟩ := by
    norm_num [runBatch, batchMiss, buildTasks, missAux, firstFailure,
      forwardPoint, fwdCoord, Bound.inside, Bound.free, Cache.lookup,
      Cache.empty, List.range_succ, fFail]
  have hee : e = ⟨[1]⟩ := by
    rw [he1] at heval
    simpa using heval
  subst hee
  exact ⟨heval.symm ▸ he1, he2, he3, he4,
    fun n => he5 (fun _ _ y => y) n ⟨Cache.empty, [0], [], [], []⟩ rfl rfl⟩

/-- C1: for a fixed deterministic objective, initial point and bounds, the
run's observable result — the assembled `(f, ∇f)` of every batch and the
final `x*` and `f(x*)` — is identical for any two worker counts (1 vs N) and
any two valid completion schedules: the worker pool influences the
computation only through the completion order, and any completion order a
pool can produce is a permutation of the dispatched batch. -/
theorem c1_schedule_and_workers_transparent
    (sched₁ sched₂ : ℕ → List Point → List Point)
    (h₁ : ∀ w l, (sched₁ w l).Perm l) (h₂ : ∀ w l, (sched₂ w l).Perm l)
    (w₁ w₂ : ℕ) (f : Point → Option ℚ) (nxt : ℚ → List ℚ → Point → Point)
    (m : Mode) (bs : List Bound) (h : Point) (n : ℕ) (x0 : Point)
    (elapsed : ℚ) :
    (run (sched₁ w₁) f nxt m bs h n x0 elapsed).map
      (fun r => (r.xstar, r.fstar, r.batches)) =
    (run (sched₂ w₂) f nxt m bs h n x0 elapsed).map
      (fun r => (r.xstar, r.fstar, r.batches)) := by
  have hmain := @runAux_pick_indep (sched₁ w₁) (sched₂ w₂) (h₁ w₁) (h₂ w₂)
    f nxt m bs h n ⟨Cache.empty, x0, [], [], []⟩ ⟨Cache.empty, x0, [], [], []⟩
    rfl rfl rfl rfl
  rcases hA1 : runAux (sched₁ w₁) f nxt m bs h n
      ⟨Cache.empty, x0, [], [], []⟩ with e1 | sf1
  · rcases hA2 : runAux (sched₂ w₂) f nxt m bs h n
        ⟨Cache.empty, x0, [], [], []⟩ with e2 | sf2
    · rw [hA1, hA2] at hmain
      simp only [Except.map] at hmain
      simp at hmain
      rw [run_of_error hA1, run_of_error hA2, hmain]
    · rw [hA1, hA2] at hmain
      simp [Except.map] at hmain
  · obtain ⟨s1, fv1⟩ := sf1
    rcases hA2 : runAux (sched₂ w₂) f nxt m bs h n
        ⟨Cache.empty, x0, [], [], []⟩ with e2 | sf2
    · rw [hA1, hA2] at hmain
      simp [Except.map] at hmain
    · obtain ⟨s2, fv2⟩ := sf2
      rw [hA1, hA2] at hmain
      simp only [Except.map, Except.ok.injEq, Prod.mk.injEq] at hmain
      obtain ⟨hx, hbat, hreq, hfv⟩ := hmain
      rw [run_of_ok hA1, run_of_ok hA2]
      simp only [Except.map, Except.ok.injEq, Prod.mk.injEq]
      exact ⟨hx, hfv, hbat⟩

/-- C1 witness: a one-worker in-order schedule and a three-worker reversed
schedule produce the same observable result on a concrete one-step run. -/
theorem c1_witness :
    (run idPick sumQ (fun _ _ y => y) Mode.forward [] [1] 1 [0] 2).map
      (fun r => (r.xstar, r.fstar, r.batches)) =
    (run revPick sumQ (fun _ _ y => y) Mode.forward [] [1] 1 [0] 2).map
      (fun r => (r.xstar, r.fstar, r.batches)) :=
  c1_schedule_and_workers_transparent (fun _ => idPick) (fun _ => revPick)
    (fun _ l => List.Perm.refl l) (fun _ l => List.reverse_perm l)
    1 3 sumQ (fun _ _ y => y) Mode.forward [] [1] 1 [0] 2

/-- C9: refinement of the sequential solver — for the same objective, step
rule, bounds and initial point, the parallel optimizer's final point and
final value are exactly equal (bit-identical in the model's exact
arithmetic) to those of the sequential solver it wraps, including agreement
on the error case. -/
theorem c9_parallel_refines_sequential {pick : List Point → List Point}
    (hpick : ValidPick pick) (f : Point → Option ℚ)
    (nxt : ℚ → List ℚ → Point → Point) (m : Mode) (bs : List Bound)
    (h : Point) (n : ℕ) (x0 : Point) (elapsed : ℚ) :
    (run pick f nxt m bs h n x0 elapsed).map (fun r => (r.xstar, r.fstar)) =
      seqRun f nxt m bs h n x0 := by
  have hmain := @runAux_seq pick hpick f nxt m bs h n
    ⟨Cache.empty, x0, [], [], []⟩ (consistent_empty f)
  rcases hA : runAux pick f nxt m bs h n
      ⟨Cache.empty, x0, [], [], []⟩ with e | sf
  · rw [hA] at hmain
    rw [run_of_error hA, ← hmain]
    rfl
  · obtain ⟨s, fv⟩ := sf
    rw [hA] at hmain
    rw [run_of_ok hA, ← hmain]
    rfl

/-- C9 witness: on a concrete one-step run with a reversed completion order,
the parallel result projects exactly to the sequential solver's result. -/
theorem c9_witness :
    (run revPick sumQ (fun _ _ y => y) Mode.forward [] [1] 1 [0] 2).map
      (fun r => (r.xstar, r.fstar)) =
      seqRun sumQ (fun _ _ y => y) Mode.forward [] [1] 1 [0] :=
  c9_parallel_refines_sequential
    (show ValidPick revPick from fun l => List.reverse_perm l) sumQ
    (fun _ _ y => y) Mode.forward [] [1] 1 [0] 2

theorem count_le_one_of_nodup {l : List Point} (hnd : l.Nodup) (a : Point) :
    l.count a ≤ 1 := by
  induction l with
  | nil => simp
  | cons q qs ih =>
      rw [List.count_cons]
      obtain ⟨hq, hnd2⟩ := List.nodup_cons.mp hnd
      by_cases hqa : q = a
      · subst hqa
        rw [List.count_eq_zero.mpr hq]
        simp
      · have := ih hnd2
        simp [hqa]
        omega

/-- C2: in a successful run, the objective is actually evaluated at most once
per exact parameter vector — every point occurs at most once in the
evaluation log, which records exactly the performed evaluations — and the
number of evaluations performed is at most the total number of points the
solver's batches requested. -/
theorem c2_at_most_one_eval_per_point {pick : List Point → List Point}
    (hpick : ValidPick pick) {f : Point → Option ℚ}
    {nxt : ℚ → List ℚ → Point → Point} {m : Mode} {bs : List Bound}
    {h : Point} {n : ℕ} {x0 : Point} {elapsed : ℚ} {r : RunOut}
    (hr : run pick f nxt m bs h n x0 elapsed = Except.ok r) :
    (∀ p : Point, (r.log.map Prod.fst).count p ≤ 1) ∧
    r.log.length ≤ r.reqs.length := by
  rcases hA : runAux pick f nxt m bs h n
      ⟨Cache.empty, x0, [], [], []⟩ with e | sf
  · rw [run_of_error hA] at hr
    simp at hr
  · obtain ⟨s, fv⟩ := sf
    rw [run_of_ok hA] at hr
    simp only [Except.ok.injEq] at hr
    obtain ⟨hnd, hlen, _⟩ := runAux_invariant hpick n
      ⟨Cache.empty, x0, [], [], []⟩ s fv (consistent_empty f)
      (by simp) (by simp) (by intro p v hv; simp [Cache.lookup, Cache.empty] at hv)
      (by simp) hA
    rw [← hr]
    exact ⟨count_le_one_of_nodup hnd, hlen⟩

/-- C2 witness: the single-batch run at `[0]` evaluates two distinct points,
each once, against two solver-requested points. -/
theorem c2_witness :
    (∀ p : Point,
      ((([([0], 0), ([1], 1)] : List (Point × ℚ)).map Prod.fst).count p ≤ 1)) ∧
    ([([0], (0 : ℚ)), ([1], 1)] : List (Point × ℚ)).length ≤
      ([[0], [1]] : List Point).length := by
  have heval : run idPick sumQ (fun _ _ y => y) Mode.forward [] [1] 0 [0] 5 =
      Except.ok ⟨[0], 0, [([0], 0), ([1], 1)], [(0, [1])], [[0], [1]],
        ⟨5, 5 / 2⟩⟩ := by
    norm_num [run, runAux, stepRun, runBatch, batchMiss, buildTasks, missAux,
      firstFailure, batchCache, commit, commitOne, batchVal, batchLog,
      assembleGrad, forwardPoint, fwdCoord, Bound.inside, Bound.free,
      Cache.empty, Cache.lookup, Cache.insert, List.range_succ,
      List.filterMap_cons, sumQ, idPick]
  exact c2_at_most_one_eval_per_point
    (show ValidPick idPick from fun l => List.Perm.refl l) heval

/-- C8: in a successful run with the time option, the returned summary's
`step` field equals its `elapsed` field (the measured wall-clock time)
divided by the number of unique objective evaluations performed (the
evaluation log is duplicate-free, so its deduplicated length is that
number). -/
theorem c8_time_summary {pick : List Point → List Point}
    (hpick : ValidPick pick) {f : Point → Option ℚ}
    {nxt : ℚ → List ℚ → Point → Point} {m : Mode} {bs : List Bound}
    {h : Point} {n : ℕ} {x0 : Point} {elapsed : ℚ} {r : RunOut}
    (hr : run pick f nxt m bs h n x0 elapsed = Except.ok r) :
    r.time.elapsed = elapsed ∧
    r.time.step =
      r.time.elapsed / (((r.log.map Prod.fst).dedup.length : ℕ) : ℚ) := by
  rcases hA : runAux pick f nxt m bs h n
      ⟨Cache.empty, x0, [], [], []⟩ with e | sf
  · rw [run_of_error hA] at hr
    simp at hr
  · obtain ⟨s, fv⟩ := sf
    rw [run_of_ok hA] at hr
    simp only [Except.ok.injEq] at hr
    obtain ⟨hnd, _, _⟩ := runAux_invariant hpick n
      ⟨Cache.empty, x0, [], [], []⟩ s fv (consistent_empty f)
      (by simp) (by simp) (by intro p v hv; simp [Cache.lookup, Cache.empty] at hv)
      (by simp) hA
    rw [← hr]
    refine ⟨rfl, ?_⟩
    show elapsed / (s.log.length : ℚ) =
      elapsed / ((((s.log.map Prod.fst).dedup.length : ℕ)) : ℚ)
    rw [hnd.dedup, List.length_map]

/-- C8 witness: on the concrete single-batch run, the summary is
`{elapsed := 5, step := 5/2}` with two unique evaluations. -/
theorem c8_witness :
    (⟨5, 5 / 2⟩ : TimeSummary).elapsed = 5 ∧
    (⟨5, 5 / 2⟩ : TimeSummary).step =
      (⟨5, 5 / 2⟩ : TimeSummary).elapsed /
        (((([([0], (0 : ℚ)), ([1], 1)] : List (Point × ℚ)).map
            Prod.fst).dedup.length : ℕ) : ℚ) := by
  have heval : run idPick sumQ (fun _ _ y => y) Mode.forward [] [1] 0 [0] 5 =
      Except.ok ⟨[0], 0, [([0], 0), ([1], 1)], [(0, [1])], [[0], [1]],
        ⟨5, 5 / 2⟩⟩ := by
    norm_num [run, runAux, stepRun, runBatch, batchMiss, buildTasks, missAux,
      firstFailure, batchCache, commit, commitOne, batchVal, batchLog,
      assembleGrad, forwardPoint, fwdCoord, Bound.inside, Bound.free,
      Cache.empty, Cache.lookup, Cache.insert, List.range_succ,
      List.filterMap_cons, sumQ, idPick]
  exact c8_time_summary
    (show ValidPick idPick from fun l => List.Perm.refl l) heval

/-- C10 counterexample: on a concrete successful run the last entry of the
evaluation log is the perturbed point `([1], 1)`, not the returned optimum
`([0], 0)` — the log records unique evaluations in completion order, so its
last entry need not be the optimum. -/
theorem c10_counterexample :
    (run idPick sumQ (fun _ _ y => y) Mode.forward [] [1] 0 [0] 5).map
        (fun r => (r.log.getLast?, r.xstar, r.fstar)) =
      Except.ok (some ([1], 1), [0], 0) ∧
    (some (([1] : Point), (1 : ℚ)), ([0] : Point), (0 : ℚ)) ≠
      (some (([0] : Point), (0 : ℚ)), ([0] : Point), (0 : ℚ)) := by
  constructor
  · norm_num [run, runAux, stepRun, runBatch, batchMiss, buildTasks, missAux,
      firstFailure, batchCache, commit, commitOne, batchVal, batchLog,
      assembleGrad, forwardPoint, fwdCoord, Bound.inside, Bound.free,
      Cache.empty, Cache.lookup, Cache.insert, List.range_succ,
      List.filterMap_cons, sumQ, idPick, Except.map, List.getLast?]
  · norm_num

/-- C10 (amended): in a successful run the returned optimum appears in the
evaluation log — some entry of the log equals `(x*, f(x*))` — though it need
not be the last entry. -/
theorem c10_optimum_in_log {pick : List Point → List Point}
    (hpick : ValidPick pick) {f : Point → Option ℚ}
    {nxt : ℚ → List ℚ → Point → Point} {m : Mode} {bs : List Bound}
    {h : Point} {n : ℕ} {x0 : Point} {elapsed : ℚ} {r : RunOut}
    (hr : run pick f nxt m bs h n x0 elapsed = Except.ok r) :
    (r.xstar, r.fstar) ∈ r.log := by
  rcases hA : runAux pick f nxt m bs h n
      ⟨Cache.empty, x0, [], [], []⟩ with e | sf
  · rw [run_of_error hA] at hr
    simp at hr
  · obtain ⟨s, fv⟩ := sf
    rw [run_of_ok hA] at hr
    simp only [Except.ok.injEq] at hr
    obtain ⟨_, _, hmem⟩ := runAux_invariant hpick n
      ⟨Cache.empty, x0, [], [], []⟩ s fv (consistent_empty f)
      (by simp) (by simp) (by intro p v hv; simp [Cache.lookup, Cache.empty] at hv)
      (by simp) hA
    rw [← hr]
    exact hmem

/-- C10 witness: on the concrete single-batch run the optimum `([0], 0)`
appears in the evaluation log. -/
theorem c10_witness :
    (([0] : Point), (0 : ℚ)) ∈ ([([0], 0), ([1], 1)] : List (Point × ℚ)) := by
  have heval : run idPick sumQ (fun _ _ y => y) Mode.forward [] [1] 0 [0] 5 =
      Except.ok ⟨[0], 0, [([0], 0), ([1], 1)], [(0, [1])], [[0], [1]],
        ⟨5, 5 / 2⟩⟩ := by
    norm_num [run, runAux, stepRun, runBatch, batchMiss, buildTasks, missAux,
      firstFailure, batchCache, commit, commitOne, batchVal, batchLog,
      assembleGrad, forwardPoint, fwdCoord, Bound.inside, Bound.free,
      Cache.empty, Cache.lookup, Cache.insert, List.range_succ,
      List.filterMap_cons, sumQ, idPick]
  exact c10_optimum_in_log
    (show ValidPick idPick from fun l => List.Perm.refl l) heval
